import Mathlib

/-!
# Verification of the camelcalc race engine and outcome enumerator

Shallow embedding of `src/camelcalc/camelup.py`, `src/camelcalc/camelcalc.py`
and `src/camelcalc/linkedlist.py`.

Modelling conventions:
* Python objects become immutable Lean values; methods that mutate `self`
  become functions `Game → Game` (or `Game → Option Game` / `Except` when the
  Python code can raise or recurse unboundedly).
* A spot's `DoublyLinkedList` of camels is modelled as a `List Color` ordered
  bottom → top (the list head is the DLL head, which is the bottom-most camel;
  the DLL tail is the top camel).  `remove_chain` of the node holding a camel
  together with everything after it corresponds to `dropWhile (· ≠ c)`, the
  remainder being `takeWhile (· ≠ c)`; `insert_chain_tail` is list append on
  the right, `insert_chain_head` append on the left, `insert_single_head` is
  `List.cons`.
* `camel.pos` is an `Int` (Python ints).  Python list indexing `spots[i]`
  accepts `-16 ≤ i ≤ 15` (negative indices wrap); `spotIdx?` returns `none`
  exactly where Python would raise `IndexError`.
* Python `set`s of colors are modelled as `List Color` (the engine only ever
  tests membership, erases and refills them); `set.pop()`'s arbitrary choice is
  modelled by passing the chosen element as an argument, guarded by a
  membership test (`none` models the `KeyError` of popping an empty set).
* The unboundedly recursive `move_camel` (movement-card cascades can loop
  forever on boards that violate the placement invariants) and the recursive
  outcome enumerator take a fuel argument; `none` models nontermination or a
  Python runtime error (failed `assert` / `IndexError`).
* The `teams` dict holds the first `numTeams` team names; per-team attributes
  are total functions on `TeamName`, with the unused names carrying the
  default values (3 coins, no cards) that never change.
-/

set_option maxHeartbeats 1000000

/-- The five camel colors (`class Color(Enum)`). -/
inductive Color : Type
  | blue
  | green
  | orange
  | yellow
  | white
deriving DecidableEq, Repr

/-- Iteration order of the `Color` enum (`for c in Color`). -/
def colorList : List Color :=
  [Color.blue, Color.green, Color.orange, Color.yellow, Color.white]

instance : Fintype Color :=
  ⟨⟨{Color.blue, Color.green, Color.orange, Color.yellow, Color.white}, by decide⟩,
    fun c => by cases c <;> decide⟩

/-- The eight team names (`class TeamName(Enum)`), values 0..7. -/
inductive TeamName : Type
  | A
  | B
  | C
  | D
  | E
  | F
  | G
  | H
deriving DecidableEq, Repr

/-- The numeric value of a team name (`TeamName.X.value`). -/
def teamIdx : TeamName → Nat
  | .A => 0
  | .B => 1
  | .C => 2
  | .D => 3
  | .E => 4
  | .F => 5
  | .G => 6
  | .H => 7

/-- `TeamName(v)` for `0 ≤ v ≤ 7` (Python raises otherwise; the engine only
produces values reduced `% len(teams)`, so the default is never hit there). -/
def teamOfIdx : Nat → TeamName
  | 0 => .A
  | 1 => .B
  | 2 => .C
  | 3 => .D
  | 4 => .E
  | 5 => .F
  | 6 => .G
  | _ => .H

/-- Iteration order of the `TeamName` enum. -/
def teamNameList : List TeamName :=
  [TeamName.A, TeamName.B, TeamName.C, TeamName.D,
   TeamName.E, TeamName.F, TeamName.G, TeamName.H]

/-- The team names present in a game with `n` teams
(`list(TeamName)[:number_of_teams]`). -/
def teamsList (n : Nat) : List TeamName := teamNameList.take n

/-- There are 16 spots on the board (zero indexed); `BOARD_SPOTS = 15`. -/
def BOARD_SPOTS : Int := 15

/-- A leg bet card (`class LegBetCard`). -/
structure LegBetCard : Type where
  color : Color
  max_payoff : Int
deriving DecidableEq, Repr

/-- `LegBetCard.get_payoff`: payoff of the bet when the camel finishes the leg
in place `place`. -/
def LegBetCard.get_payoff (card : LegBetCard) (place : Nat) : Int :=
  if place = 1 then card.max_payoff
  else if place = 2 then 1
  else -1

/-- A movement card (`class MovementCard`). -/
structure MovementCard : Type where
  team : TeamName
  forward : Bool
deriving DecidableEq, Repr

/-- An overall winner/loser bet card (`class OverallBetCard`). -/
structure OverallBetCard : Type where
  color : Color
  team : TeamName
deriving DecidableEq, Repr

/-- `generate_initial_leg_bet_cards`: per color the cards with max payoff
5, 3, 2 in that order. -/
def generate_initial_leg_bet_cards : Color → List LegBetCard :=
  fun color => [5, 3, 2].map (fun v => LegBetCard.mk color v)

/-- Python list indexing into the 16-element `spots` list: valid for
`-16 ≤ i ≤ 15` (negative indices count from the end), `IndexError`
otherwise. -/
def spotIdx? (i : Int) : Option (Fin 16) :=
  if h : 0 ≤ i ∧ i ≤ 15 then some ⟨i.toNat, by omega⟩
  else if h' : -16 ≤ i ∧ i < 0 then some ⟨(i + 16).toNat, by omega⟩
  else none

/-- The game state (`class Game`).  `stacks i` is the camel stack of spot `i`
ordered bottom → top; `mcard i` its optional movement card; `pos c` the `pos`
field of the camel of color `c`. -/
structure Game : Type where
  numTeams : Nat
  active_team : TeamName
  die_remaining : List Color
  pos : Color → Int
  spot_camels : Fin 16 → List Color
  mcard : Fin 16 → Option MovementCard
  leg_bet_cards : Color → List LegBetCard
  coins : TeamName → Int
  team_leg_cards : TeamName → List LegBetCard
  placed_movement_card : TeamName → Bool
  overall_bets_made : TeamName → Color → Bool
  overall_winner_cards : List OverallBetCard
  overall_loser_cards : List OverallBetCard
  playing : Bool
  winners : Option (List TeamName)

/-- `self.teams[t].coins += n`. -/
def addCoins (g : Game) (t : TeamName) (n : Int) : Game :=
  { g with coins := Function.update g.coins t (g.coins t + n) }

/-- `Game.finish_turn`: the next team (cyclically) becomes active. -/
def finish_turn (g : Game) : Game :=
  { g with active_team := teamOfIdx ((teamIdx g.active_team + 1) % g.numTeams) }

/-- `Game.get_positions`, inner loop: assign places `p, p+1, ...` to the
camels of one spot walked top → bottom, later assignments overwriting
earlier ones as in the Python `results` dict. -/
def assignStack : List Color → Nat → (Color → Nat) → Nat × (Color → Nat)
  | [], p, res => (p, res)
  | c :: rest, p, res => assignStack rest (p + 1) (Function.update res c p)

/-- `Game.get_positions`: walk spots 15 down to 0, each stack top → bottom,
assigning places 1, 2, ... in visitation order; a new spot is only consumed
while fewer than 5 places have been assigned (`while place < 6`).  Colors
never visited stay at the default 0 (Python would raise `KeyError` on lookup;
with the 5-camel invariant every color is assigned).  Python keeps walking
into negative indices when fewer than 5 camels are on the board; the model
stops after spot 0. -/
def get_positions (g : Game) : Color → Nat :=
  ((List.finRange 16).reverse.foldl
    (fun (st : Nat × (Color → Nat)) i =>
      if st.1 < 6 then assignStack (g.spot_camels i).reverse st.1 st.2 else st)
    (1, fun _ => 0)).2

/-- `Game.finish_leg`: refill the dice, pay out and clear every team's held
leg-bet cards, deal a fresh card deck, clear the movement-card flags and the
movement cards on the board. -/
def finish_leg (g : Game) : Game :=
  let positions := get_positions g
  { g with
    die_remaining := colorList
    coins := fun t =>
      g.coins t + ((g.team_leg_cards t).map
        (fun card => card.get_payoff (positions card.color))).sum
    team_leg_cards := fun _ => []
    leg_bet_cards := generate_initial_leg_bet_cards
    placed_movement_card := fun _ => false
    mcard := fun _ => none }

/-- The fixed overall-bet payoff table `[8, 5, 3, 2, 1]`. -/
def payoffsOverall : List Int := [8, 5, 3, 2, 1]

/-- One iteration of the settlement loops of `Game.finish_game`: a card whose
color has the target place earns `payoffs[index]` while
`index < len(payoffs)` (and advances the index), every other card costs its
team 1 coin. -/
def settleStep (positions : Color → Nat) (target : Nat)
    (st : (TeamName → Int) × Nat) (card : OverallBetCard) :
    (TeamName → Int) × Nat :=
  if positions card.color = target then
    if st.2 < payoffsOverall.length then
      (Function.update st.1 card.team (st.1 card.team + payoffsOverall.getD st.2 0),
       st.2 + 1)
    else st
  else
    (Function.update st.1 card.team (st.1 card.team - 1), st.2)

/-- One settlement loop of `Game.finish_game`: walk the overall bet cards in
placement order carrying `(coins, index)`, starting at index 0. -/
def settleOverall (cards : List OverallBetCard) (positions : Color → Nat)
    (target : Nat) (coins : TeamName → Int) : (TeamName → Int) × Nat :=
  cards.foldl (settleStep positions target) (coins, 0)

/-- `max(map(lambda x: x.coins, self.teams.values()))`. -/
def maxCoins (g : Game) (coins : TeamName → Int) : Int :=
  ((teamsList g.numTeams).map coins).foldl max ((teamsList g.numTeams).map coins).headI

/-- `Game.finish_game`: score the final leg, settle the overall winner and
loser bets, compute the winning teams and stop play. -/
def finish_game (g : Game) : Game :=
  let g1 := finish_leg g
  let positions := get_positions g1
  let coinsW := (settleOverall g1.overall_winner_cards positions 1 g1.coins).1
  let coinsL := (settleOverall g1.overall_loser_cards positions 5 coinsW).1
  let m := maxCoins g1 coinsL
  { g1 with
    coins := coinsL
    winners := some ((teamsList g1.numTeams).filter (fun t => coinsL t = m))
    playing := false }

/-- The chain detached by `move_camel`: the camel of color `c` and everything
stacked above it at spot `sp` (`remove_chain` of the camel's node). -/
def chainAt (g : Game) (sp : Fin 16) (c : Color) : List Color :=
  (g.spot_camels sp).dropWhile (fun x => x ≠ c)

/-- The one-step relocation of `move_camel`: update the positions of the
chain's camels, detach the chain from spot `sp` and insert it at spot `np`
(`insert_chain_tail` for forward moves, `insert_chain_head` for backward
moves). -/
def relocate (g : Game) (c : Color) (sp np : Fin 16) (newPos : Int)
    (fwd : Bool) : Game :=
  let chain := chainAt g sp c
  let remain := (g.spot_camels sp).takeWhile (fun x => x ≠ c)
  let stacks1 := Function.update g.spot_camels sp remain
  let stacks2 := Function.update stacks1 np
    (if fwd then stacks1 np ++ chain else chain ++ stacks1 np)
  { g with
    pos := fun x => if x ∈ chain then newPos else g.pos x
    spot_camels := stacks2 }

/-- `Game.move_camel(color, spots)`.  The fuel bounds the recursion
(overflow clamping and movement-card cascades); `none` models nontermination
or a Python runtime error (`IndexError` on an out-of-range position, failed
`assert` when the camel is not in its spot's stack). -/
def move_camel : Nat → Game → Color → Int → Option Game
  | 0, _, _, _ => none
  | fuel + 1, g, color, spots =>
    if spots = 0 then some g
    else
      match spotIdx? (g.pos color) with
      | none => none
      | some sp =>
        if chainAt g sp color = [] then none
        else
          let newPos := g.pos color + spots
          if 0 < spots ∧ BOARD_SPOTS < newPos then
            (move_camel fuel g color (BOARD_SPOTS - g.pos color)).map finish_game
          else
            match spotIdx? newPos with
            | none => none
            | some np =>
              let g1 := relocate g color sp np newPos (0 < spots)
              match g1.mcard np with
              | none => some g1
              | some card =>
                let g2 := addCoins g1 card.team 1
                move_camel fuel g2 color (if card.forward then 1 else -1)

/-- `Game.can_bet_on_leg`. -/
def can_bet_on_leg (g : Game) (color : Color) : Bool :=
  decide (0 < (g.leg_bet_cards color).length)

/-- Board index for an `Int` position already validated to be in range
(used by `can_place_movement_card` after its bounds checks). -/
def spotFin (i : Int) : Fin 16 :=
  ⟨(i % 16).toNat, by omega⟩

/-- `Game.can_place_movement_card`: the active team has not placed a card
this leg, `1 ≤ position ≤ 15`, the spot behind carries no card, the spot
ahead (when on the board) carries no card, the spot itself carries no card
and holds no camels. -/
def can_place_movement_card (g : Game) (position : Int) : Bool :=
  if g.placed_movement_card g.active_team then false
  else if position < 1 ∨ BOARD_SPOTS < position then false
  else if (g.mcard (spotFin (position - 1))).isSome then false
  else if position < BOARD_SPOTS ∧ (g.mcard (spotFin (position + 1))).isSome then false
  else if (g.mcard (spotFin position)).isSome then false
  else if ¬ (g.spot_camels (spotFin position)) = [] then false
  else true

/-- `Game.can_make_overall_bet`. -/
def can_make_overall_bet (g : Game) (color : Color) : Bool :=
  ! g.overall_bets_made g.active_team color

/-- `InvalidMoveException`. -/
inductive MoveError : Type
  | invalidMove
deriving DecidableEq, Repr

/-- `Game.bet_on_leg`: raise unless a card is available, else pop the front
(highest) card of the color's deck into the active team's held cards, advance
the turn and return the card's max payoff. -/
def bet_on_leg (g : Game) (color : Color) : Except MoveError (Game × Int) :=
  if ¬ can_bet_on_leg g color then .error .invalidMove
  else
    match g.leg_bet_cards color with
    | [] => .error .invalidMove
    | card :: rest =>
      let g1 := { g with
        leg_bet_cards := Function.update g.leg_bet_cards color rest
        team_leg_cards := Function.update g.team_leg_cards g.active_team
          (card :: g.team_leg_cards g.active_team) }
      .ok (finish_turn g1, card.max_payoff)

/-- `Game.place_movement_card`: raise unless the placement is legal, else put
the card down, mark the team's flag and advance the turn. -/
def place_movement_card (g : Game) (direction : Bool) (position : Int) :
    Except MoveError Game :=
  if ¬ can_place_movement_card g position then .error .invalidMove
  else
    let g1 := { g with
      mcard := Function.update g.mcard (spotFin position)
        (some ⟨g.active_team, direction⟩)
      placed_movement_card := Function.update g.placed_movement_card g.active_team true }
    .ok (finish_turn g1)

/-- `Game.make_overall_bet`: raise if the active team already bet on that
color, else record the color and append the bet card to the winner or loser
list.  (The source does not call `finish_turn` here.) -/
def make_overall_bet (g : Game) (winner : Bool) (color : Color) :
    Except MoveError Game :=
  if ¬ can_make_overall_bet g color then .error .invalidMove
  else
    let g1 := { g with
      overall_bets_made := Function.update g.overall_bets_made g.active_team
        (Function.update (g.overall_bets_made g.active_team) color true) }
    .ok (if winner then
      { g1 with overall_winner_cards := g1.overall_winner_cards ++ [⟨color, g1.active_team⟩] }
    else
      { g1 with overall_loser_cards := g1.overall_loser_cards ++ [⟨color, g1.active_team⟩] })

/-- `Game.roll_dice`: credit the active team one coin, pop a color from
`die_remaining` (`c` is the element the set chose; `none` models `KeyError`
when the chosen element is not there, in particular when the set is empty),
move that camel by the rolled value `r`, finish the leg when no dice remain,
and advance the turn. -/
def roll_dice (mfuel : Nat) (g : Game) (c : Color) (r : Int) : Option Game :=
  let g0 := addCoins g g.active_team 1
  if c ∈ g0.die_remaining then
    let g1 := { g0 with die_remaining := g0.die_remaining.erase c }
    (move_camel mfuel g1 c r).map (fun g2 =>
      let g3 := if g2.die_remaining = [] then finish_leg g2 else g2
      finish_turn g3)
  else none

/-- `generate_initial_board`, camel placement: for each color in enum order,
put its camel (at position `roll - 1` for a die roll `roll`) at the bottom of
that spot's stack (`insert_single_head`). -/
def placeCamels : List Color → (Color → Int) → (Fin 16 → List Color) →
    Option (Fin 16 → List Color)
  | [], _, st => some st
  | c :: rest, rolls, st =>
    match spotIdx? (rolls c - 1) with
    | none => none
    | some sp => placeCamels rest rolls (Function.update st sp (c :: st sp))

/-- `Game.__init__` with the camels' initial die rolls passed explicitly
(`rolls c` is the `roll_dice()` value drawn for color `c`, always 1..3 in the
source).  `none` models the `ValueError` for a team count outside 2..8. -/
def mkGame (numTeams : Nat) (rolls : Color → Int) : Option Game :=
  if numTeams < 2 ∨ 8 < numTeams then none
  else
    (placeCamels colorList rolls (fun _ => [])).map (fun board =>
      { numTeams := numTeams
        active_team := TeamName.A
        die_remaining := colorList
        pos := fun c => rolls c - 1
        spot_camels := board
        mcard := fun _ => none
        leg_bet_cards := generate_initial_leg_bet_cards
        coins := fun _ => 3
        team_leg_cards := fun _ => []
        placed_movement_card := fun _ => false
        overall_bets_made := fun _ _ => false
        overall_winner_cards := []
        overall_loser_cards := []
        playing := true
        winners := none })

/-- The die values iterated by `generate_outcomes` (`range(1, 4)`). -/
def rollValues : List Int := [1, 2, 3]

/-- The state a `generate_outcomes` branch recurses on: the moved copy with
the rolled color discarded from its dice (`g.die_remaining.discard(color)`). -/
def branchState (g1 : Game) (c : Color) : Game :=
  { g1 with die_remaining := g1.die_remaining.erase c }

/-- Inner loop of `generate_outcomes`: one color, all rolls in `rs`, the
recursive enumeration `ih` applied to each branch, results concatenated in
order (`outcomes.extend`). -/
def rollLoop (mv : Nat) (ih : Game → Option (List Game)) (g : Game)
    (c : Color) : List Int → Option (List Game)
  | [] => some []
  | r :: rs =>
    (move_camel mv g c r).bind fun g1 =>
      (ih (branchState g1 c)).bind fun outs1 =>
        (rollLoop mv ih g c rs).map fun rest => outs1 ++ rest

/-- Outer loop of `generate_outcomes`: all colors of `cs`
(`for color in game.die_remaining`). -/
def colorLoop (mv : Nat) (ih : Game → Option (List Game)) (g : Game) :
    List Color → Option (List Game)
  | [] => some []
  | c :: cs =>
    (rollLoop mv ih g c rollValues).bind fun outs1 =>
      (colorLoop mv ih g cs).map fun rest => outs1 ++ rest

/-- `generate_outcomes`: all roll outcomes of the remaining dice.  Each branch
deep-copies the game, moves the rolled camel and discards the rolled die on
the copy.  `mv` is the fuel of each `move_camel` call, `fuel` bounds the
recursion depth of the enumeration itself (Python recurses without bound; a
finishing move refills `die_remaining`, so the tree need not shrink). -/
def generate_outcomes (mv : Nat) : Nat → Game → Option (List Game)
  | 0, _ => none
  | fuel + 1, g =>
    if g.die_remaining = [] then some [g]
    else colorLoop mv (fun g' => generate_outcomes mv fuel g') g g.die_remaining

/-- The effect of one enumeration branch sequence: play the listed
(color, roll) pairs in order, each by `move_camel` followed by discarding the
color from the copy's dice. -/
def applySeq (mv : Nat) : Game → List (Color × Int) → Option Game
  | g, [] => some g
  | g, (c, r) :: rest =>
    (move_camel mv g c r).bind fun g1 => applySeq mv (branchState g1 c) rest

/-- The `payoffs` dict of `calculate_best_leg_bet`: per color the first
available leg-bet card of the game at enumeration start, if any. -/
def topCard (g : Game) (c : Color) : Option LegBetCard :=
  (g.leg_bet_cards c).head?

/-- The `expected_payoffs` totals of `calculate_best_leg_bet`: colors without
an available card keep the initial 0, every other color sums its start-time
top card's payoff at that color's place over all outcomes. -/
def expectedTotals (g : Game) (outs : List Game) (c : Color) : Int :=
  match topCard g c with
  | none => 0
  | some card => (outs.map (fun o => card.get_payoff (get_positions o c))).sum

/-- `max(expected_payoffs, key=expected_payoffs.get)`: the first color (in
enum order, the dict's insertion order) attaining the maximal total. -/
def bestColor (totals : Color → Int) : Color :=
  (colorList.tail).foldl (fun best c => if totals best < totals c then c else best)
    Color.blue

/-- `calculate_best_leg_bet`: the best color to make a leg bet on and its
expected payoff (total divided by the number of outcomes, as a rational). -/
def calculate_best_leg_bet (mv fuel : Nat) (g : Game) :
    Option (Color × Rat) :=
  (generate_outcomes mv fuel g).map fun outs =>
    let best := bestColor (expectedTotals g outs)
    (best, (expectedTotals g outs best : Rat) / (outs.length : Rat))

/-- A concrete in-progress 2-team game: one die (blue) remains and the blue
camel already stands on spot 15, the other camels on spots 0..3; no movement
cards, fresh card decks, no bets. -/
def gOverflow : Game where
  numTeams := 2
  active_team := .A
  die_remaining := [Color.blue]
  pos := fun c => match c with
    | .blue => 15
    | .green => 0
    | .orange => 1
    | .yellow => 2
    | .white => 3
  spot_camels := fun i =>
    if i = (15 : Fin 16) then [Color.blue]
    else if i = (0 : Fin 16) then [Color.green]
    else if i = (1 : Fin 16) then [Color.orange]
    else if i = (2 : Fin 16) then [Color.yellow]
    else if i = (3 : Fin 16) then [Color.white]
    else []
  mcard := fun _ => none
  leg_bet_cards := generate_initial_leg_bet_cards
  coins := fun _ => 3
  team_leg_cards := fun _ => []
  placed_movement_card := fun _ => false
  overall_bets_made := fun _ _ => false
  overall_winner_cards := []
  overall_loser_cards := []
  playing := true
  winners := none

/-- Leaf count of `rollLoop` (same recursion, list lengths instead of
lists). -/
def rollLoopN (mv : Nat) (ihN : Game → Option Nat) (g : Game) (c : Color) :
    List Int → Option Nat
  | [] => some 0
  | r :: rs =>
    (move_camel mv g c r).bind fun g1 =>
      (ihN (branchState g1 c)).bind fun n1 =>
        (rollLoopN mv ihN g c rs).map fun rest => n1 + rest

/-- Leaf count of `colorLoop`. -/
def colorLoopN (mv : Nat) (ihN : Game → Option Nat) (g : Game) :
    List Color → Option Nat
  | [] => some 0
  | c :: cs =>
    (rollLoopN mv ihN g c rollValues).bind fun n1 =>
      (colorLoopN mv ihN g cs).map fun rest => n1 + rest

/-- The number of leaves `generate_outcomes` returns, computed without
materializing the outcome list. -/
def leafCount (mv : Nat) : Nat → Game → Option Nat
  | 0, _ => none
  | fuel + 1, g =>
    if g.die_remaining = [] then some 1
    else colorLoopN mv (fun g' => leafCount mv fuel g') g g.die_remaining

lemma rollLoopN_spec (mv : Nat) (ih : Game → Option (List Game))
    (ihN : Game → Option Nat) (hih : ∀ g', (ih g').map List.length = ihN g')
    (g : Game) (c : Color) :
    ∀ rs, (rollLoop mv ih g c rs).map List.length = rollLoopN mv ihN g c rs := by
  intro rs
  induction rs with
  | nil => rfl
  | cons r rs ihr =>
    simp only [rollLoop, rollLoopN]
    cases hm : move_camel mv g c r with
    | none => rfl
    | some g1 =>
      simp only [Option.bind_some, Option.some_bind]
      rw [← hih (branchState g1 c)]
      cases hb : ih (branchState g1 c) with
      | none => rfl
      | some outs1 =>
        simp only [Option.map_some, Option.some_bind]
        rw [← ihr]
        cases hr : rollLoop mv ih g c rs with
        | none => rfl
        | some rest => simp

lemma colorLoopN_spec (mv : Nat) (ih : Game → Option (List Game))
    (ihN : Game → Option Nat) (hih : ∀ g', (ih g').map List.length = ihN g')
    (g : Game) :
    ∀ cs, (colorLoop mv ih g cs).map List.length = colorLoopN mv ihN g cs := by
  intro cs
  induction cs with
  | nil => rfl
  | cons c cs ihc =>
    simp only [colorLoop, colorLoopN]
    rw [← rollLoopN_spec mv ih ihN hih g c rollValues]
    cases hr : rollLoop mv ih g c rollValues with
    | none => rfl
    | some outs1 =>
      simp only [Option.map_some, Option.some_bind]
      rw [← ihc]
      cases hc : colorLoop mv ih g cs with
      | none => rfl
      | some rest => simp

/-- The length of the outcome list equals `leafCount`. -/
lemma generate_outcomes_length (mv : Nat) :
    ∀ fuel g, (generate_outcomes mv fuel g).map List.length = leafCount mv fuel g := by
  intro fuel
  induction fuel with
  | zero => intro g; rfl
  | succ fuel ihf =>
    intro g
    simp only [generate_outcomes, leafCount]
    by_cases hd : g.die_remaining = []
    · simp [hd]
    · simp only [if_neg hd]
      exact colorLoopN_spec mv _ _ ihf g g.die_remaining

set_option maxRecDepth 100000

/-- Consistency invariant of the board: every camel is on the board exactly
once, in the stack of the spot its `pos` field denotes (via Python list
indexing), and in no other stack. -/
def BoardInv (g : Game) : Prop :=
  ∀ x : Color, ∃ sp : Fin 16,
    spotIdx? (g.pos x) = some sp ∧
    (g.spot_camels sp).count x = 1 ∧
    ∀ j : Fin 16, j ≠ sp → (g.spot_camels j).count x = 0

instance (g : Game) : Decidable (BoardInv g) := by
  unfold BoardInv; infer_instance

/-- The union of all spots' stacks contains each color exactly once (hence
exactly 5 camels in total). -/
def CamelCount (g : Game) : Prop :=
  ∀ x : Color, ((List.finRange 16).map (fun j => (g.spot_camels j).count x)).sum = 1

instance (g : Game) : Decidable (CamelCount g) := by
  unfold CamelCount; infer_instance

lemma BoardInv.camelCount {g : Game} (h : BoardInv g) : CamelCount g := by
  intro x
  obtain ⟨sp, _, h1, h0⟩ := h x
  rw [← Fin.sum_univ_def]
  rw [Finset.sum_eq_single sp]
  · exact h1
  · intro j _ hj; exact h0 j hj
  · intro hsp; exact absurd (Finset.mem_univ sp) hsp

/-- Transport of the invariant along equal boards. -/
lemma BoardInv_of_eq {g g' : Game} (hst : g'.spot_camels = g.spot_camels)
    (hpos : g'.pos = g.pos) (h : BoardInv g) : BoardInv g' := by
  intro x
  obtain ⟨sp, hs, h1, h0⟩ := h x
  exact ⟨sp, by rw [hpos]; exact hs, by rw [hst]; exact h1,
    fun j hj => by rw [hst]; exact h0 j hj⟩

/-- The camels below the detached chain at spot `sp`. -/
def remainAt (g : Game) (sp : Fin 16) (c : Color) : List Color :=
  (g.spot_camels sp).takeWhile (fun x => x ≠ c)

lemma remainAt_append_chainAt (g : Game) (sp : Fin 16) (c : Color) :
    remainAt g sp c ++ chainAt g sp c = g.spot_camels sp := by
  unfold remainAt chainAt
  simp

lemma count_remain_add_chain (g : Game) (sp : Fin 16) (c x : Color) :
    (remainAt g sp c).count x + (chainAt g sp c).count x
      = (g.spot_camels sp).count x := by
  rw [← List.count_append, remainAt_append_chainAt]

lemma relocate_pos (g : Game) (c : Color) (sp np : Fin 16) (newPos : Int)
    (fwd : Bool) (x : Color) :
    (relocate g c sp np newPos fwd).pos x
      = if x ∈ chainAt g sp c then newPos else g.pos x := rfl

lemma count_app_ite (fwd : Bool) (A C : List Color) (x : Color) :
    (if fwd then A ++ C else C ++ A).count x = A.count x + C.count x := by
  cases fwd <;> simp [List.count_append] <;> omega

lemma relocate_count (g : Game) (c : Color) (sp np : Fin 16) (newPos : Int)
    (fwd : Bool) (x : Color) (j : Fin 16) :
    ((relocate g c sp np newPos fwd).spot_camels j).count x
      = (if j = np then (chainAt g sp c).count x else 0)
        + (if j = sp then (remainAt g sp c).count x
           else (g.spot_camels j).count x) := by
  have hsc : (relocate g c sp np newPos fwd).spot_camels
      = Function.update (Function.update g.spot_camels sp (remainAt g sp c)) np
          (if fwd then
            Function.update g.spot_camels sp (remainAt g sp c) np ++ chainAt g sp c
          else chainAt g sp c ++ Function.update g.spot_camels sp (remainAt g sp c) np) := rfl
  simp only [hsc, Function.update_apply]
  by_cases hjnp : j = np
  · subst hjnp
    rw [if_pos rfl, if_pos rfl, count_app_ite]
    by_cases hjsp : j = sp
    · rw [if_pos hjsp, if_pos hjsp]; omega
    · rw [if_neg hjsp, if_neg hjsp]; omega
  · rw [if_neg hjnp, if_neg hjnp]
    by_cases hjsp : j = sp <;> simp [hjsp]

/-- The one-step relocation of `move_camel` preserves the board invariant. -/
lemma relocate_BoardInv {g : Game} {c : Color} {sp np : Fin 16} {newPos : Int}
    {fwd : Bool} (hInv : BoardInv g) (hsp : spotIdx? (g.pos c) = some sp)
    (hnp : spotIdx? newPos = some np) :
    BoardInv (relocate g c sp np newPos fwd) := by
  intro x
  obtain ⟨hx, hxs, hx1, hx0⟩ := hInv x
  have hsum := count_remain_add_chain g sp c x
  by_cases hmem : x ∈ chainAt g sp c
  · -- x is in the moving chain: its new home is np
    have hchain_pos : 0 < (chainAt g sp c).count x := List.count_pos_iff.mpr hmem
    have hx_home : hx = sp := by
      by_contra hne
      have h0 := hx0 sp (fun h => hne h.symm)
      omega
    subst hx_home
    have hchain1 : (chainAt g hx c).count x = 1 := by omega
    have hrem0 : (remainAt g hx c).count x = 0 := by omega
    refine ⟨np, ?_, ?_, ?_⟩
    · rw [relocate_pos, if_pos hmem]; exact hnp
    · rw [relocate_count, if_pos rfl]
      by_cases hnpsp : np = hx
      · rw [if_pos hnpsp]; omega
      · rw [if_neg hnpsp]
        have := hx0 np hnpsp
        omega
    · intro j hj
      rw [relocate_count, if_neg hj]
      by_cases hjsp : j = hx
      · rw [if_pos hjsp]; omega
      · rw [if_neg hjsp]
        have := hx0 j hjsp
        omega
  · -- x stays where it was
    have hchain0 : (chainAt g sp c).count x = 0 := List.count_eq_zero.mpr hmem
    refine ⟨hx, ?_, ?_, ?_⟩
    · rw [relocate_pos, if_neg hmem]; exact hxs
    · rw [relocate_count, hchain0, ite_self]
      by_cases hhxsp : hx = sp
      · rw [if_pos hhxsp]
        rw [hhxsp] at hx1
        omega
      · rw [if_neg hhxsp]
        omega
    · intro j hj
      rw [relocate_count, hchain0, ite_self]
      by_cases hjsp : j = sp
      · rw [if_pos hjsp]
        have h0 : (g.spot_camels sp).count x = 0 := by
          rw [← hjsp]; exact hx0 j hj
        omega
      · rw [if_neg hjsp]
        have := hx0 j hj
        omega

lemma relocate_mcard (g : Game) (c : Color) (sp np : Fin 16) (newPos : Int)
    (fwd : Bool) : (relocate g c sp np newPos fwd).mcard = g.mcard := rfl

lemma finish_leg_spot_camels (g : Game) :
    (finish_leg g).spot_camels = g.spot_camels := rfl

lemma finish_leg_pos (g : Game) : (finish_leg g).pos = g.pos := rfl

lemma finish_game_spot_camels (g : Game) :
    (finish_game g).spot_camels = g.spot_camels := rfl

lemma finish_game_pos (g : Game) : (finish_game g).pos = g.pos := rfl

lemma finish_game_playing (g : Game) : (finish_game g).playing = false := rfl

lemma addCoins_spot_camels (g : Game) (t : TeamName) (n : Int) :
    (addCoins g t n).spot_camels = g.spot_camels := rfl

lemma addCoins_pos (g : Game) (t : TeamName) (n : Int) :
    (addCoins g t n).pos = g.pos := rfl

/-- `move_camel` preserves the board invariant, movement-card cascades and the
game-finishing overflow path included. -/
lemma move_camel_BoardInv :
    ∀ (fuel : Nat) (g : Game) (c : Color) (d : Int) (g' : Game),
      BoardInv g → move_camel fuel g c d = some g' → BoardInv g' := by
  intro fuel
  induction fuel with
  | zero => intro g c d g' _ h; simp [move_camel] at h
  | succ fuel ih =>
    intro g c d g' hInv h
    simp only [move_camel] at h
    split at h
    · cases h; exact hInv
    · split at h
      · cases h
      · rename_i h0 sp hsp
        split at h
        · cases h
        · split at h
          · -- overflow: clamp to spot 15, then finish the game
            cases hm : move_camel fuel g c (BOARD_SPOTS - g.pos c) with
            | none => rw [hm] at h; cases h
            | some g1 =>
              rw [hm] at h
              have hg : finish_game g1 = g' := Option.some.inj h
              subst hg
              exact BoardInv_of_eq (finish_game_spot_camels g1) (finish_game_pos g1)
                (ih g c _ g1 hInv hm)
          · split at h
            · cases h
            · rename_i hch hov np hnp
              have hrel : BoardInv (relocate g c sp np (g.pos c + d) (decide (0 < d))) :=
                relocate_BoardInv hInv hsp hnp
              split at h
              · cases h; exact hrel
              · exact ih _ c _ g'
                  (BoardInv_of_eq (addCoins_spot_camels _ _ _) (addCoins_pos _ _ _) hrel) h

/-- A `move_camel` call either leaves `die_remaining` and `playing` untouched,
or the game has been finished (it never refills the dice while play goes
on). -/
lemma move_camel_die_playing :
    ∀ (fuel : Nat) (g : Game) (c : Color) (d : Int) (g' : Game),
      move_camel fuel g c d = some g' →
      (g'.die_remaining = g.die_remaining ∧ g'.playing = g.playing)
        ∨ g'.playing = false := by
  intro fuel
  induction fuel with
  | zero => intro g c d g' h; simp [move_camel] at h
  | succ fuel ih =>
    intro g c d g' h
    simp only [move_camel] at h
    split at h
    · cases h; exact Or.inl ⟨rfl, rfl⟩
    · split at h
      · cases h
      · split at h
        · cases h
        · split at h
          · cases hm : move_camel fuel g c (BOARD_SPOTS - g.pos c) with
            | none => rw [hm] at h; cases h
            | some g1 =>
              rw [hm] at h
              have hg : finish_game g1 = g' := Option.some.inj h
              subst hg
              exact Or.inr (finish_game_playing g1)
          · split at h
            · cases h
            · split at h
              · cases h; exact Or.inl ⟨rfl, rfl⟩
              · rcases ih _ _ _ g' h with h' | h'
                · exact Or.inl ⟨h'.1, h'.2⟩
                · exact Or.inr h'

lemma placeCamels_home :
    ∀ (cs : List Color) (rolls : Color → Int) (st st' : Fin 16 → List Color),
      placeCamels cs rolls st = some st' →
      ∀ c ∈ cs, ∃ sp, spotIdx? (rolls c - 1) = some sp := by
  intro cs
  induction cs with
  | nil => intro rolls st st' _ c hc; cases hc
  | cons c0 rest ih =>
    intro rolls st st' h c hc
    simp only [placeCamels] at h
    cases hsp : spotIdx? (rolls c0 - 1) with
    | none => rw [hsp] at h; cases h
    | some sp =>
      rw [hsp] at h
      rcases List.mem_cons.mp hc with hceq | hcr
      · exact ⟨sp, hceq ▸ hsp⟩
      · exact ih rolls _ st' h c hcr

lemma placeCamels_count :
    ∀ (cs : List Color) (rolls : Color → Int) (st st' : Fin 16 → List Color),
      placeCamels cs rolls st = some st' →
      ∀ (x : Color) (jx : Fin 16), spotIdx? (rolls x - 1) = some jx →
        ∀ j : Fin 16,
          (st' j).count x = (st j).count x + (if j = jx then cs.count x else 0) := by
  intro cs
  induction cs with
  | nil =>
    intro rolls st st' h x jx _ j
    cases h
    simp
  | cons c0 rest ih =>
    intro rolls st st' h x jx hx j
    simp only [placeCamels] at h
    cases hsp : spotIdx? (rolls c0 - 1) with
    | none => rw [hsp] at h; cases h
    | some sp =>
      rw [hsp] at h
      have hstep := ih rolls _ st' h x jx hx j
      rw [hstep]
      by_cases hxc : c0 = x
      · subst hxc
        have hjx : jx = sp := by
          rw [hx] at hsp
          exact Option.some.inj hsp
        subst hjx
        by_cases hj : j = jx
        · subst hj
          rw [Function.update_same]
          simp [List.count_cons]
          omega
        · rw [Function.update_noteq hj]
          simp [hj, List.count_cons]
      · have hc : ((c0 :: st sp).count x) = (st sp).count x := by
          simp [List.count_cons, hxc]
        by_cases hj : j = sp
        · subst hj
          rw [Function.update_same, hc]
          simp [List.count_cons, hxc]
        · rw [Function.update_noteq hj]
          simp [List.count_cons, hxc]

lemma colorList_count (x : Color) : colorList.count x = 1 := by
  cases x <;> rfl

lemma colorList_mem (x : Color) : x ∈ colorList := by
  cases x <;> decide

/-- A freshly constructed game satisfies the board invariant. -/
lemma mkGame_BoardInv {n : Nat} {rolls : Color → Int} {g : Game}
    (h : mkGame n rolls = some g) : BoardInv g := by
  simp only [mkGame] at h
  split at h
  · cases h
  · cases hb : placeCamels colorList rolls (fun _ => []) with
    | none => rw [hb] at h; cases h
    | some board =>
      rw [hb] at h
      have hg : g.spot_camels = board ∧ g.pos = fun c => rolls c - 1 := by
        cases h; exact ⟨rfl, rfl⟩
      intro x
      obtain ⟨sp, hsp⟩ :=
        placeCamels_home colorList rolls _ board hb x (colorList_mem x)
      refine ⟨sp, ?_, ?_, ?_⟩
      · rw [hg.2]; exact hsp
      · rw [hg.1, placeCamels_count colorList rolls _ board hb x sp hsp sp]
        simp [colorList_count]
      · intro j hj
        rw [hg.1, placeCamels_count colorList rolls _ board hb x sp hsp j]
        simp [hj]

lemma bet_on_leg_ok {g : Game} {c : Color} {g' : Game} {v : Int}
    (h : bet_on_leg g c = .ok (g', v)) :
    g'.spot_camels = g.spot_camels ∧ g'.pos = g.pos ∧
      g'.die_remaining = g.die_remaining ∧ g'.playing = g.playing := by
  unfold bet_on_leg at h
  split at h
  · cases h
  · split at h
    · cases h
    · cases h
      exact ⟨rfl, rfl, rfl, rfl⟩

lemma place_movement_card_ok {g : Game} {dir : Bool} {p : Int} {g' : Game}
    (h : place_movement_card g dir p = .ok g') :
    g'.spot_camels = g.spot_camels ∧ g'.pos = g.pos ∧
      g'.die_remaining = g.die_remaining ∧ g'.playing = g.playing := by
  unfold place_movement_card at h
  split at h
  · cases h
  · cases h
    exact ⟨rfl, rfl, rfl, rfl⟩

lemma make_overall_bet_ok {g : Game} {w : Bool} {c : Color} {g' : Game}
    (h : make_overall_bet g w c = .ok g') :
    g'.spot_camels = g.spot_camels ∧ g'.pos = g.pos ∧
      g'.die_remaining = g.die_remaining ∧ g'.playing = g.playing ∧
      g'.active_team = g.active_team := by
  unfold make_overall_bet at h
  split at h
  · cases h
  · cases h
    cases w
    · exact ⟨rfl, rfl, rfl, rfl, rfl⟩
    · exact ⟨rfl, rfl, rfl, rfl, rfl⟩

/-- Decomposition of a successful `roll_dice` call. -/
lemma roll_dice_some {mfuel : Nat} {g : Game} {c : Color} {r : Int} {g' : Game}
    (h : roll_dice mfuel g c r = some g') :
    ∃ g2, move_camel mfuel
        { addCoins g g.active_team 1 with
          die_remaining := (addCoins g g.active_team 1).die_remaining.erase c }
        c r = some g2 ∧
      g' = finish_turn (if g2.die_remaining = [] then finish_leg g2 else g2) := by
  simp only [roll_dice] at h
  split at h
  · cases hm : move_camel mfuel
        { addCoins g g.active_team 1 with
          die_remaining := (addCoins g g.active_team 1).die_remaining.erase c } c r with
    | none => rw [hm] at h; cases h
    | some g2 =>
      rw [hm] at h
      have hg : _ = g' := Option.some.inj h
      exact ⟨g2, rfl, hg.symm⟩
  · cases h

/-- The game states reachable from a fresh game through the public
operations (`roll_dice`, `bet_on_leg`, `place_movement_card`,
`make_overall_bet`). -/
inductive Reachable : Game → Prop
  | init (n : Nat) (rolls : Color → Int) (g : Game) :
      (∀ c, 1 ≤ rolls c ∧ rolls c ≤ 3) → mkGame n rolls = some g → Reachable g
  | roll (mfuel : Nat) (g : Game) (c : Color) (r : Int) (g' : Game) :
      Reachable g → 1 ≤ r → r ≤ 3 → roll_dice mfuel g c r = some g' → Reachable g'
  | bet (g : Game) (c : Color) (g' : Game) (v : Int) :
      Reachable g → bet_on_leg g c = .ok (g', v) → Reachable g'
  | place (g : Game) (dir : Bool) (p : Int) (g' : Game) :
      Reachable g → place_movement_card g dir p = .ok g' → Reachable g'
  | overall (g : Game) (w : Bool) (c : Color) (g' : Game) :
      Reachable g → make_overall_bet g w c = .ok g' → Reachable g'

/-- Every reachable game satisfies the board invariant. -/
lemma reachable_BoardInv {g : Game} (h : Reachable g) : BoardInv g := by
  induction h with
  | init n rolls g hb hmk => exact mkGame_BoardInv hmk
  | roll mfuel g c r g' _ _ _ hroll ihg =>
    obtain ⟨g2, hm, hg'⟩ := roll_dice_some hroll
    have hmid : BoardInv
        { addCoins g g.active_team 1 with
          die_remaining := (addCoins g g.active_team 1).die_remaining.erase c } :=
      BoardInv_of_eq rfl rfl ihg
    have h2 : BoardInv g2 := move_camel_BoardInv _ _ _ _ _ hmid hm
    subst hg'
    by_cases hd : g2.die_remaining = []
    · rw [if_pos hd]
      exact BoardInv_of_eq rfl rfl h2
    · rw [if_neg hd]
      exact BoardInv_of_eq rfl rfl h2
  | bet g c g' v _ hok ihg =>
    exact BoardInv_of_eq (bet_on_leg_ok hok).1 (bet_on_leg_ok hok).2.1 ihg
  | place g dir p g' _ hok ihg =>
    exact BoardInv_of_eq (place_movement_card_ok hok).1 (place_movement_card_ok hok).2.1 ihg
  | overall g w c g' _ hok ihg =>
    exact BoardInv_of_eq (make_overall_bet_ok hok).1 (make_overall_bet_ok hok).2.1 ihg

/-- C8: in every state reachable from a fresh game through the public
operations, the union of all spots' stacks contains exactly 5 camels, one per
color, each appearing exactly once; and every successful `move_camel` call
(movement-card cascades included) started from a consistent board again
yields a board carrying each color exactly once. -/
theorem claim_C8 :
    (∀ g : Game, Reachable g → CamelCount g) ∧
    (∀ (fuel : Nat) (g : Game) (c : Color) (d : Int) (g' : Game),
      BoardInv g → move_camel fuel g c d = some g' → CamelCount g') := by
  constructor
  · intro g h
    exact (reachable_BoardInv h).camelCount
  · intro fuel g c d g' hInv hm
    exact (move_camel_BoardInv fuel g c d g' hInv hm).camelCount

theorem claim_C8_witness :
    CamelCount ((mkGame 2 (fun _ => 1)).get (by rfl)) ∧
      CamelCount ((move_camel 5 gOverflow Color.white 2).get (by rfl)) :=
  ⟨claim_C8.1 _ (Reachable.init 2 (fun _ => 1) _ (fun c => by exact ⟨le_refl 1, by norm_num⟩)
      (Option.some_get (by rfl)).symm),
    claim_C8.2 5 gOverflow Color.white 2 _ (by decide) (Option.some_get (by rfl)).symm⟩

/-- C10: after construction and after every public mutator, `die_remaining`
is nonempty (an operation that empties it refills it through `finish_leg`),
so the unguarded `die_remaining.pop()` of `roll_dice` always has an element
to draw. -/
theorem claim_C10 : ∀ g : Game, Reachable g → g.die_remaining ≠ [] := by
  intro g h
  induction h with
  | init n rolls g hb hmk =>
    simp only [mkGame] at hmk
    split at hmk
    · cases hmk
    · cases hpc : placeCamels colorList rolls (fun _ => []) with
      | none => rw [hpc] at hmk; cases hmk
      | some board =>
        rw [hpc] at hmk
        cases hmk
        intro hfalse
        cases hfalse
  | roll mfuel g c r g' _ _ _ hroll ihg =>
    obtain ⟨g2, _, hg'⟩ := roll_dice_some hroll
    subst hg'
    by_cases hd : g2.die_remaining = []
    · rw [if_pos hd]
      intro hfalse
      cases hfalse
    · rw [if_neg hd]
      exact hd
  | bet g c g' v _ hok ihg =>
    rw [(bet_on_leg_ok hok).2.2.1]; exact ihg
  | place g dir p g' _ hok ihg =>
    rw [(place_movement_card_ok hok).2.2.1]; exact ihg
  | overall g w c g' _ hok ihg =>
    rw [(make_overall_bet_ok hok).2.2.1]; exact ihg

theorem claim_C10_witness :
    ((mkGame 2 (fun _ => 1)).get (by rfl)).die_remaining ≠ [] :=
  claim_C10 _ (Reachable.init 2 (fun _ => 1) _ (fun c => by exact ⟨le_refl 1, by norm_num⟩)
    (Option.some_get (by rfl)).symm)

/-- A concrete in-progress 2-team game with all camels on spots 0..4 and one
die (white) remaining; no movement cards, fresh card decks, no bets. -/
def gLow : Game where
  numTeams := 2
  active_team := .A
  die_remaining := [Color.white]
  pos := fun c => match c with
    | .blue => 0
    | .green => 1
    | .orange => 2
    | .yellow => 3
    | .white => 4
  spot_camels := fun i =>
    if i = (0 : Fin 16) then [Color.blue]
    else if i = (1 : Fin 16) then [Color.green]
    else if i = (2 : Fin 16) then [Color.orange]
    else if i = (3 : Fin 16) then [Color.yellow]
    else if i = (4 : Fin 16) then [Color.white]
    else []
  mcard := fun _ => none
  leg_bet_cards := generate_initial_leg_bet_cards
  coins := fun _ => 3
  team_leg_cards := fun _ => []
  placed_movement_card := fun _ => false
  overall_bets_made := fun _ _ => false
  overall_winner_cards := []
  overall_loser_cards := []
  playing := true
  winners := none

/-- C7: whenever `bet_on_leg`, `place_movement_card` or `make_overall_bet` is
called while its matching can-predicate is false, the call raises
`InvalidMove`.  Each of the three methods tests its predicate before touching
any state, so the error path constructs no new state at all: the game is left
unmodified. -/
theorem claim_C7 :
    (∀ (g : Game) (c : Color), can_bet_on_leg g c = false →
      bet_on_leg g c = .error .invalidMove) ∧
    (∀ (g : Game) (dir : Bool) (p : Int), can_place_movement_card g p = false →
      place_movement_card g dir p = .error .invalidMove) ∧
    (∀ (g : Game) (w : Bool) (c : Color), can_make_overall_bet g c = false →
      make_overall_bet g w c = .error .invalidMove) := by
  refine ⟨?_, ?_, ?_⟩
  · intro g c h
    simp [bet_on_leg, h]
  · intro g dir p h
    simp [place_movement_card, h]
  · intro g w c h
    simp [make_overall_bet, h]

theorem claim_C7_witness :
    can_bet_on_leg { gLow with leg_bet_cards := fun _ => [] } Color.blue = false ∧
    bet_on_leg { gLow with leg_bet_cards := fun _ => [] } Color.blue
      = .error .invalidMove ∧
    can_place_movement_card gLow 0 = false ∧
    place_movement_card gLow true 0 = .error .invalidMove ∧
    can_make_overall_bet { gLow with overall_bets_made := fun _ _ => true } Color.blue
      = false ∧
    make_overall_bet { gLow with overall_bets_made := fun _ _ => true } true Color.blue
      = .error .invalidMove :=
  ⟨rfl, claim_C7.1 _ _ rfl, rfl, claim_C7.2.1 _ _ _ rfl, rfl, claim_C7.2.2 _ _ _ rfl⟩

/-- C3 (code bug): `make_overall_bet` does not advance the turn.  Evaluated on
a concrete game with active team A, the active team after the call is still A,
while the claim (and spec §4.2.5) says it advances to the next team. -/
theorem claim_C3_code_bug :
    (make_overall_bet gLow true Color.blue).map Game.active_team
        = .ok TeamName.A ∧
      gLow.active_team = TeamName.A ∧ 1 < gLow.numTeams := by
  refine ⟨rfl, rfl, by decide⟩

/-- The placement-legality condition exactly as claim C5 states it, with the
upper position bound 14. -/
def specCanPlaceC5 (g : Game) (position : Int) : Prop :=
  g.placed_movement_card g.active_team = false ∧
  1 ≤ position ∧ position ≤ 14 ∧
  g.mcard (spotFin (position - 1)) = none ∧
  (position + 1 ≤ 14 → g.mcard (spotFin (position + 1)) = none) ∧
  g.mcard (spotFin position) = none ∧
  g.spot_camels (spotFin position) = []

instance (g : Game) (p : Int) : Decidable (specCanPlaceC5 g p) := by
  unfold specCanPlaceC5; infer_instance

/-- The placement-legality condition with the bound the code enforces:
positions 1..15, the spot ahead only checked while it is on the board. -/
def specCanPlaceAmended (g : Game) (position : Int) : Prop :=
  g.placed_movement_card g.active_team = false ∧
  1 ≤ position ∧ position ≤ 15 ∧
  g.mcard (spotFin (position - 1)) = none ∧
  (position < 15 → g.mcard (spotFin (position + 1)) = none) ∧
  g.mcard (spotFin position) = none ∧
  g.spot_camels (spotFin position) = []

/-- C5 (counterexample): position 15 — `can_place_movement_card` accepts it,
the claim's condition (bound 14) rejects it. -/
theorem claim_C5_counterexample :
    can_place_movement_card gLow 15 = true ∧ ¬ specCanPlaceC5 gLow 15 := by
  constructor
  · rfl
  · decide

/-- C5 (amended): placing a movement card succeeds exactly when the active
team has not placed one this leg, `1 ≤ position ≤ 15`, neither neighbour spot
(the one ahead only when it is on the board) carries a card, and the spot
itself carries no card and holds no camels. -/
theorem claim_C5_amended (g : Game) (p : Int) :
    can_place_movement_card g p = true ↔ specCanPlaceAmended g p := by
  unfold can_place_movement_card specCanPlaceAmended BOARD_SPOTS
  split_ifs with h1 h2 h3 h4 h5 h6
  · simp [h1]
  · simp only [false_iff]
    rintro ⟨-, hB, hC, -, -, -, -⟩
    omega
  · simp only [false_iff]
    rintro ⟨-, -, -, hD, -, -, -⟩
    rw [hD] at h3
    cases h3
  · simp only [false_iff]
    rintro ⟨-, -, -, -, hE, -, -⟩
    obtain ⟨hlt, hs⟩ := h4
    rw [hE hlt] at hs
    cases hs
  · simp only [false_iff]
    rintro ⟨-, -, -, -, -, hF, -⟩
    rw [hF] at h5
    cases h5
  · simp only [true_iff]
    refine ⟨by simpa using h1, by omega, by omega, ?_, ?_, ?_, h6⟩
    · exact Option.not_isSome_iff_eq_none.mp h3
    · intro hlt
      exact Option.not_isSome_iff_eq_none.mp (fun hs => h4 ⟨hlt, hs⟩)
    · exact Option.not_isSome_iff_eq_none.mp h5
  · simp only [false_iff]
    rintro ⟨-, -, -, -, -, -, hG⟩
    exact h6 hG

/-- A concrete 2-team game: blue on spot 14, a backward movement card (owned
by team A) on spot 15, the other camels on spots 0..3. -/
def gBackCard : Game where
  numTeams := 2
  active_team := .A
  die_remaining := [Color.blue]
  pos := fun c => match c with
    | .blue => 14
    | .green => 0
    | .orange => 1
    | .yellow => 2
    | .white => 3
  spot_camels := fun i =>
    if i = (14 : Fin 16) then [Color.blue]
    else if i = (0 : Fin 16) then [Color.green]
    else if i = (1 : Fin 16) then [Color.orange]
    else if i = (2 : Fin 16) then [Color.yellow]
    else if i = (3 : Fin 16) then [Color.white]
    else []
  mcard := fun i =>
    if i = (15 : Fin 16) then some ⟨TeamName.A, false⟩ else none
  leg_bet_cards := generate_initial_leg_bet_cards
  coins := fun _ => 3
  team_leg_cards := fun _ => []
  placed_movement_card := fun _ => false
  overall_bets_made := fun _ _ => false
  overall_winner_cards := []
  overall_loser_cards := []
  playing := true
  winners := none

/-- C4 (counterexample): moving blue by 2 from spot 14 overflows; the clamped
move lands on spot 15, but the backward movement card there cascades the camel
back to spot 14, so the finishing move does not leave the camel on spot 15 —
the movement-card cascade does apply to the clamped landing. -/
theorem claim_C4_counterexample :
    0 < (2 : Int) ∧ BOARD_SPOTS < gBackCard.pos Color.blue + 2 ∧
    (move_camel 10 gBackCard Color.blue 2).map (fun g => g.pos Color.blue)
      = some 14 ∧
    (move_camel 10 gBackCard Color.blue 2).map
        (fun g => g.coins TeamName.A) = some 4 := by
  refine ⟨by norm_num, by decide, by rfl, by rfl⟩

lemma spotIdx?_of_bounds {i : Int} (h0 : 0 ≤ i) (h15 : i ≤ 15) :
    spotIdx? i = some ⟨i.toNat, by omega⟩ := by
  unfold spotIdx?
  rw [dif_pos ⟨h0, h15⟩]

lemma spotIdx?_val {i : Int} {j : Fin 16} (h0 : 0 ≤ i) (h15 : i ≤ 15)
    (h : spotIdx? i = some j) : (j : Int) = i := by
  rw [spotIdx?_of_bounds h0 h15] at h
  have := Option.some.inj h
  subst this
  simp
  omega

lemma chainAt_head {g : Game} {sp : Fin 16} {c : Color}
    (h : chainAt g sp c ≠ []) : c ∈ chainAt g sp c := by
  unfold chainAt at *
  cases hd : (g.spot_camels sp).dropWhile (fun x => x ≠ c) with
  | nil => exact absurd hd h
  | cons y ys =>
    have hy : ¬ (fun x => decide (x ≠ c)) y = true := by
      have := List.head?_dropWhile_not (fun x => decide (x ≠ c)) (g.spot_camels sp)
      rw [hd] at this
      simpa using this
    simp at hy
    subst hy
    exact List.mem_cons_self _ _

lemma chainAt_subset {g : Game} {sp : Fin 16} {c : Color} :
    ∀ x ∈ chainAt g sp c, x ∈ g.spot_camels sp := by
  intro x hx
  exact (List.dropWhile_sublist _).subset hx

/-- Under the board invariant, a camel found in a stack has that spot as its
recorded home. -/
lemma BoardInv.home_of_mem {g : Game} {x : Color} {sp : Fin 16}
    (h : BoardInv g) (hm : x ∈ g.spot_camels sp) :
    spotIdx? (g.pos x) = some sp := by
  obtain ⟨home, hh, h1, h0⟩ := h x
  by_cases hsp : home = sp
  · rw [← hsp]; exact hh
  · have := h0 sp (fun he => hsp he.symm)
    rw [List.count_eq_zero] at this
    exact absurd hm this

lemma spotIdx?_eq_spotFin {i : Int} (h0 : 0 ≤ i) (h15 : i ≤ 15) :
    spotIdx? i = some (spotFin i) := by
  rw [spotIdx?_of_bounds h0 h15]
  unfold spotFin
  congr 1
  simp [Fin.ext_iff]
  omega

/-- C4 (amended): when the move of a camel overflows spot 15 and spot 15
carries no movement card, the camel and its whole chain land exactly on spot
15 and the game is finished; no movement-card cascade applies.  (When spot 15
does carry a card, the cascade does fire on the clamped landing — see the
counterexample.) -/
theorem claim_C4_amended :
    ∀ (fuel : Nat) (g : Game) (c : Color) (d : Int) (g' : Game),
      BoardInv g → (∀ x, 0 ≤ g.pos x ∧ g.pos x ≤ 15) →
      g.mcard (15 : Fin 16) = none →
      0 < d → BOARD_SPOTS < g.pos c + d →
      move_camel fuel g c d = some g' →
      g'.pos c = 15 ∧ g'.playing = false ∧
        ∀ x ∈ chainAt g (spotFin (g.pos c)) c, g'.pos x = 15 := by
  intro fuel g c d g' hInv hb hcard hd hov h
  have hsp : spotIdx? (g.pos c) = some (spotFin (g.pos c)) :=
    spotIdx?_eq_spotFin (hb c).1 (hb c).2
  cases fuel with
  | zero => simp [move_camel] at h
  | succ fuel =>
    simp only [move_camel] at h
    split at h
    · rename_i h0; omega
    · split at h
      · rename_i heq
        rw [hsp] at heq
        cases heq
      · rename_i h0 sp hsp2
        have hspe : sp = spotFin (g.pos c) := by
          rw [hsp] at hsp2
          exact (Option.some.inj hsp2).symm
        subst hspe
        split at h
        · cases h
        · rename_i hch
          split at h
          case isFalse hov2 => exact absurd ⟨hd, hov⟩ hov2
          case isTrue =>
            cases hm : move_camel fuel g c (BOARD_SPOTS - g.pos c) with
            | none => rw [hm] at h; cases h
            | some g1 =>
              rw [hm] at h
              have hg : finish_game g1 = g' := Option.some.inj h
              subst hg
              suffices hsuf : g1.pos c = 15 ∧
                  ∀ x ∈ chainAt g (spotFin (g.pos c)) c, g1.pos x = 15 by
                exact ⟨hsuf.1, finish_game_playing g1, hsuf.2⟩
              by_cases hd15 : g.pos c = 15
              · -- already on spot 15: the clamped delta is 0, a no-op
                have hzero : BOARD_SPOTS - g.pos c = 0 := by
                  unfold BOARD_SPOTS; omega
                cases fuel with
                | zero => simp [move_camel] at hm
                | succ fuel2 =>
                  rw [hzero] at hm
                  simp only [move_camel, if_pos rfl] at hm
                  have hg1 : g = g1 := Option.some.inj hm
                  subst hg1
                  refine ⟨hd15, ?_⟩
                  intro x hx
                  have hmemstack := chainAt_subset x hx
                  have hhome := hInv.home_of_mem hmemstack
                  have := spotIdx?_val (hb x).1 (hb x).2 hhome
                  have hval : ((spotFin (g.pos c) : Fin 16) : Int) = g.pos x := this
                  rw [hd15] at hval
                  have : ((spotFin 15 : Fin 16) : Int) = 15 := by decide
                  omega
              · -- genuine clamped forward move to spot 15
                cases fuel with
                | zero => simp [move_camel] at hm
                | succ fuel2 =>
                  simp only [move_camel] at hm
                  rw [if_neg (by unfold BOARD_SPOTS; omega : ¬ BOARD_SPOTS - g.pos c = 0)] at hm
                  split at hm
                  · rename_i heq
                    rw [hsp] at heq
                    cases heq
                  · rename_i sp2 hsp3
                    have hspe2 : sp2 = spotFin (g.pos c) := by
                      rw [hsp] at hsp3
                      exact (Option.some.inj hsp3).symm
                    subst hspe2
                    split at hm
                    · cases hm
                    · split at hm
                      · rename_i hovX
                        exfalso
                        unfold BOARD_SPOTS at hovX
                        omega
                      ·
                        split at hm
                        · rename_i hnone
                          rw [(by unfold BOARD_SPOTS; ring :
                              g.pos c + (BOARD_SPOTS - g.pos c) = 15)] at hnone
                          rw [(by decide : spotIdx? 15 = some (15 : Fin 16))] at hnone
                          cases hnone
                        · rename_i np hnp
                          have hnp15 : np = (15 : Fin 16) := by
                            rw [(by unfold BOARD_SPOTS; ring :
                                g.pos c + (BOARD_SPOTS - g.pos c) = 15)] at hnp
                            rw [(by decide : spotIdx? 15 = some (15 : Fin 16))] at hnp
                            exact (Option.some.inj hnp).symm
                          split at hm
                          · -- no movement card on spot 15: the chain stays put
                            have hrel := Option.some.inj hm
                            have hpos15 : g.pos c + (BOARD_SPOTS - g.pos c) = 15 := by
                              unfold BOARD_SPOTS; ring
                            constructor
                            · rw [← hrel, relocate_pos,
                                if_pos (chainAt_head hch), hpos15]
                            · intro x hx
                              rw [← hrel, relocate_pos, if_pos hx, hpos15]
                          · -- impossible: spot 15 carries no card
                            rename_i card hmc
                            exfalso
                            rw [relocate_mcard, hnp15, hcard] at hmc
                            cases hmc

theorem claim_C4_witness :
    ((move_camel 10 gOverflow Color.blue 3).get (by rfl)).pos Color.blue = 15 ∧
      ((move_camel 10 gOverflow Color.blue 3).get (by rfl)).playing = false :=
  ⟨(claim_C4_amended 10 gOverflow Color.blue 3 _ (by decide) (by decide) (by decide)
      (by decide) (by decide) (Option.some_get (by rfl)).symm).1,
    (claim_C4_amended 10 gOverflow Color.blue 3 _ (by decide) (by decide) (by decide)
      (by decide) (by decide) (Option.some_get (by rfl)).symm).2.1⟩

/-- The overall-bet settlement rule as claim C6 words it, transcribed per
card: walking the cards in placement order with `k` counting the earlier
cards whose color reached the target place, a correct card earns its team the
next payoff `payoffs[k]` when fewer than 5 payouts have happened (`k < 5`)
and nothing otherwise, and every incorrect card costs its team 1 coin
regardless of the cap. -/
def specSettleSpec (ps : Color → Nat) (target : Nat) (t : TeamName) :
    Nat → List OverallBetCard → Int
  | _, [] => 0
  | k, card :: rest =>
    (if card.team = t then
      (if ps card.color = target then
        (if k < 5 then payoffsOverall.getD k 0 else 0)
      else -1)
    else 0)
    + specSettleSpec ps target t (if ps card.color = target then k + 1 else k) rest

/-- The settlement fold of `finish_game` computes exactly the per-card rule of
claim C6: the fold's payout index is the capped count `min k 5` of earlier
correct cards. -/
lemma settle_fold_spec (ps : Color → Nat) (target : Nat) (t : TeamName) :
    ∀ (cards : List OverallBetCard) (coins : TeamName → Int) (k j : Nat),
      j = min k 5 →
      (cards.foldl (settleStep ps target) (coins, j)).1 t
        = coins t + specSettleSpec ps target t k cards := by
  intro cards
  induction cards with
  | nil => intro coins k j _; simp [specSettleSpec]
  | cons card rest ih =>
    intro coins k j hj
    have hlen : payoffsOverall.length = 5 := rfl
    simp only [List.foldl_cons, specSettleSpec, settleStep]
    by_cases hc : ps card.color = target
    · simp only [if_pos hc]
      by_cases hk : k < 5
      · have hj5 : j < payoffsOverall.length := by omega
        have hjk : j = k := by omega
        rw [if_pos hj5, ih _ (k + 1) (j + 1) (by omega), if_pos hk,
          Function.update_apply, hjk]
        by_cases ht : card.team = t
        · rw [if_pos ht, if_pos ht.symm, ht]
          ring
        · rw [if_neg ht, if_neg (fun he => ht he.symm)]
          ring
      · have hj5 : ¬ j < payoffsOverall.length := by omega
        rw [if_neg hj5, ih _ (k + 1) j (by omega), if_neg hk]
        by_cases ht : card.team = t
        · rw [if_pos ht]; ring
        · rw [if_neg ht]; ring
    · simp only [if_neg hc]
      rw [ih _ k j hj, Function.update_apply]
      by_cases ht : card.team = t
      · rw [if_pos ht, if_pos ht.symm, ht]
        ring
      · rw [if_neg ht, if_neg (fun he => ht he.symm)]
        ring

/-- C6: at game end, the coins of every team change by exactly the claim's
per-card settlement: walking `overall_winner_cards` in placement order, each
card whose color finished first earns the next payoff of [8,5,3,2,1] while
fewer than 5 payouts have been made (a 6th or later correct card earns and
loses nothing) and every incorrect card costs 1 coin regardless of the cap;
the same rule applies to `overall_loser_cards` with place 5. -/
theorem claim_C6 (g : Game) (t : TeamName) :
    (finish_game g).coins t
      = (finish_leg g).coins t
        + specSettleSpec (get_positions (finish_leg g)) 1 t 0 g.overall_winner_cards
        + specSettleSpec (get_positions (finish_leg g)) 5 t 0 g.overall_loser_cards := by
  have hw : (finish_game g).coins t
      = (settleOverall g.overall_loser_cards (get_positions (finish_leg g)) 5
          (settleOverall g.overall_winner_cards (get_positions (finish_leg g)) 1
            (finish_leg g).coins).1).1 t := rfl
  rw [hw]
  unfold settleOverall
  rw [settle_fold_spec _ 5 t _ _ 0 0 (by omega)]
  rw [settle_fold_spec _ 1 t _ _ 0 0 (by omega)]

/-- A concrete in-progress 2-team game: one die (white) remains, blue and
green lead on spots 15 and 14 but their leg-bet decks are exhausted, the
three carded colors trail on spots 0..2. -/
def gNoCardLead : Game where
  numTeams := 2
  active_team := .A
  die_remaining := [Color.white]
  pos := fun c => match c with
    | .blue => 15
    | .green => 14
    | .orange => 1
    | .yellow => 2
    | .white => 0
  spot_camels := fun i =>
    if i = (15 : Fin 16) then [Color.blue]
    else if i = (14 : Fin 16) then [Color.green]
    else if i = (1 : Fin 16) then [Color.orange]
    else if i = (2 : Fin 16) then [Color.yellow]
    else if i = (0 : Fin 16) then [Color.white]
    else []
  mcard := fun _ => none
  leg_bet_cards := fun c => match c with
    | .blue => []
    | .green => []
    | c' => generate_initial_leg_bet_cards c'
  coins := fun _ => 3
  team_leg_cards := fun _ => []
  placed_movement_card := fun _ => false
  overall_bets_made := fun _ _ => false
  overall_winner_cards := []
  overall_loser_cards := []
  playing := true
  winners := none

/-- C2 (counterexample): on `gNoCardLead` every carded color has a strictly
negative total, so the `max` over all five colors picks blue — a color whose
leg-bet card list is empty at enumeration start.  The code does not exclude
card-less colors from the selection. -/
theorem claim_C2_counterexample :
    gNoCardLead.leg_bet_cards Color.blue = [] ∧
      (calculate_best_leg_bet 10 3 gNoCardLead).map Prod.fst = some Color.blue :=
  ⟨rfl, rfl⟩

/-- C2 (amended): a color whose leg-bet card list is empty at enumeration
start contributes 0 to every total, but it is not excluded from the
selection: the best color is the maximum over all five colors (first in enum
order among ties), so a card-less color is selected whenever its 0 total is
maximal. -/
theorem claim_C2_amended :
    (∀ (g : Game) (c : Color) (outs : List Game),
      g.leg_bet_cards c = [] → expectedTotals g outs c = 0) ∧
    (∀ (totals : Color → Int) (x : Color), totals x ≤ totals (bestColor totals)) := by
  constructor
  · intro g c outs h
    unfold expectedTotals topCard
    rw [h]
    rfl
  · intro totals x
    unfold bestColor colorList
    simp only [List.tail_cons, List.foldl_cons, List.foldl_nil]
    split_ifs <;> cases x <;> omega

theorem claim_C2_witness :
    expectedTotals gNoCardLead [] Color.blue = 0 ∧
      (fun _ : Color => (0 : Int)) Color.green
        ≤ (fun _ : Color => (0 : Int)) (bestColor fun _ => 0) :=
  ⟨claim_C2_amended.1 gNoCardLead Color.blue [] rfl,
    claim_C2_amended.2 (fun _ => 0) Color.green⟩

lemma rollLoop_length (mv : Nat) (ih : Game → Option (List Game)) (g : Game)
    (c : Color) (n : Nat)
    (hbr : ∀ r ∈ rollValues, ∀ (g1 : Game) (bouts : List Game),
      move_camel mv g c r = some g1 → ih (branchState g1 c) = some bouts →
      bouts.length = n) :
    ∀ rs, (∀ r ∈ rs, r ∈ rollValues) → ∀ outs,
      rollLoop mv ih g c rs = some outs → outs.length = rs.length * n := by
  intro rs
  induction rs with
  | nil =>
    intro _ outs h
    cases h
    simp
  | cons r rs ihr =>
    intro hrs outs h
    simp only [rollLoop] at h
    cases hm : move_camel mv g c r with
    | none => rw [hm] at h; cases h
    | some g1 =>
      rw [hm] at h
      simp only [Option.some_bind] at h
      cases hb : ih (branchState g1 c) with
      | none => rw [hb] at h; cases h
      | some bouts =>
        rw [hb] at h
        simp only [Option.some_bind] at h
        cases hr : rollLoop mv ih g c rs with
        | none => rw [hr] at h; cases h
        | some rest =>
          rw [hr] at h
          simp only [Option.map_some'] at h
          have : bouts ++ rest = outs := Option.some.inj h
          subst this
          rw [List.length_append]
          rw [hbr r (hrs r (List.mem_cons_self r rs)) g1 bouts hm hb]
          rw [ihr (fun r' hr' => hrs r' (List.mem_cons_of_mem r hr')) rest hr]
          simp only [List.length_cons]
          ring

lemma colorLoop_length (mv : Nat) (ih : Game → Option (List Game)) (g : Game)
    (n : Nat) :
    ∀ cs, (∀ c ∈ cs, ∀ r ∈ rollValues, ∀ (g1 : Game) (bouts : List Game),
        move_camel mv g c r = some g1 → ih (branchState g1 c) = some bouts →
        bouts.length = n) →
      ∀ outs, colorLoop mv ih g cs = some outs →
        outs.length = cs.length * (3 * n) := by
  intro cs
  induction cs with
  | nil =>
    intro _ outs h
    cases h
    simp
  | cons c cs ihc =>
    intro hcs outs h
    simp only [colorLoop] at h
    cases hro : rollLoop mv ih g c rollValues with
    | none => rw [hro] at h; cases h
    | some outs1 =>
      rw [hro] at h
      simp only [Option.some_bind] at h
      cases hco : colorLoop mv ih g cs with
      | none => rw [hco] at h; cases h
      | some rest =>
        rw [hco] at h
        simp only [Option.map_some'] at h
        have : outs1 ++ rest = outs := Option.some.inj h
        subst this
        rw [List.length_append]
        rw [rollLoop_length mv ih g c n (hcs c (List.mem_cons_self c cs))
          rollValues (fun r hr => hr) outs1 hro]
        rw [ihc (fun c' hc' => hcs c' (List.mem_cons_of_mem c hc')) rest hco]
        simp only [rollValues, List.length_cons, List.length_nil]
        ring

lemma rollLoop_mem (mv : Nat) (ih : Game → Option (List Game)) (g : Game)
    (c : Color) :
    ∀ rs outs, rollLoop mv ih g c rs = some outs →
      ∀ l ∈ outs, ∃ r ∈ rs, ∃ (g1 : Game) (bouts : List Game),
        move_camel mv g c r = some g1 ∧ ih (branchState g1 c) = some bouts ∧
        l ∈ bouts := by
  intro rs
  induction rs with
  | nil =>
    intro outs h l hl
    cases h
    cases hl
  | cons r rs ihr =>
    intro outs h l hl
    simp only [rollLoop] at h
    cases hm : move_camel mv g c r with
    | none => rw [hm] at h; cases h
    | some g1 =>
      rw [hm] at h
      simp only [Option.some_bind] at h
      cases hb : ih (branchState g1 c) with
      | none => rw [hb] at h; cases h
      | some bouts =>
        rw [hb] at h
        simp only [Option.some_bind] at h
        cases hr : rollLoop mv ih g c rs with
        | none => rw [hr] at h; cases h
        | some rest =>
          rw [hr] at h
          simp only [Option.map_some'] at h
          have heq : bouts ++ rest = outs := Option.some.inj h
          subst heq
          rcases List.mem_append.mp hl with hin | hin
          · exact ⟨r, List.mem_cons_self r rs, g1, bouts, hm, hb, hin⟩
          · obtain ⟨r', hr', g1', bouts', hm', hb', hin'⟩ := ihr rest hr l hin
            exact ⟨r', List.mem_cons_of_mem r hr', g1', bouts', hm', hb', hin'⟩

lemma colorLoop_mem (mv : Nat) (ih : Game → Option (List Game)) (g : Game) :
    ∀ cs outs, colorLoop mv ih g cs = some outs →
      ∀ l ∈ outs, ∃ c ∈ cs, ∃ r ∈ rollValues, ∃ (g1 : Game) (bouts : List Game),
        move_camel mv g c r = some g1 ∧ ih (branchState g1 c) = some bouts ∧
        l ∈ bouts := by
  intro cs
  induction cs with
  | nil =>
    intro outs h l hl
    cases h
    cases hl
  | cons c cs ihc =>
    intro outs h l hl
    simp only [colorLoop] at h
    cases hro : rollLoop mv ih g c rollValues with
    | none => rw [hro] at h; cases h
    | some outs1 =>
      rw [hro] at h
      simp only [Option.some_bind] at h
      cases hco : colorLoop mv ih g cs with
      | none => rw [hco] at h; cases h
      | some rest =>
        rw [hco] at h
        simp only [Option.map_some'] at h
        have heq : outs1 ++ rest = outs := Option.some.inj h
        subst heq
        rcases List.mem_append.mp hl with hin | hin
        · obtain ⟨r, hr, g1, bouts, hm, hb, hin'⟩ :=
            rollLoop_mem mv ih g c rollValues outs1 hro l hin
          exact ⟨c, List.mem_cons_self c cs, r, hr, g1, bouts, hm, hb, hin'⟩
        · obtain ⟨c', hc', r, hr, g1, bouts, hm, hb, hin'⟩ := ihc rest hco l hin
          exact ⟨c', List.mem_cons_of_mem c hc', r, hr, g1, bouts, hm, hb, hin'⟩

lemma rollLoop_extract (mv : Nat) (ih : Game → Option (List Game)) (g : Game)
    (c : Color) :
    ∀ rs outs, rollLoop mv ih g c rs = some outs →
      ∀ r ∈ rs, ∃ (g1 : Game) (bouts : List Game),
        move_camel mv g c r = some g1 ∧ ih (branchState g1 c) = some bouts ∧
        ∀ l ∈ bouts, l ∈ outs := by
  intro rs
  induction rs with
  | nil =>
    intro outs _ r hr
    cases hr
  | cons r0 rs ihr =>
    intro outs h r hr
    simp only [rollLoop] at h
    cases hm : move_camel mv g c r0 with
    | none => rw [hm] at h; cases h
    | some g1 =>
      rw [hm] at h
      simp only [Option.some_bind] at h
      cases hb : ih (branchState g1 c) with
      | none => rw [hb] at h; cases h
      | some bouts =>
        rw [hb] at h
        simp only [Option.some_bind] at h
        cases hrest : rollLoop mv ih g c rs with
        | none => rw [hrest] at h; cases h
        | some rest =>
          rw [hrest] at h
          simp only [Option.map_some'] at h
          have heq : bouts ++ rest = outs := Option.some.inj h
          subst heq
          rcases List.mem_cons.mp hr with hre | hre
          · subst hre
            exact ⟨g1, bouts, hm, hb,
              fun l hl => List.mem_append.mpr (Or.inl hl)⟩
          · obtain ⟨g1', bouts', hm', hb', hsub⟩ := ihr rest hrest r hre
            exact ⟨g1', bouts', hm', hb',
              fun l hl => List.mem_append.mpr (Or.inr (hsub l hl))⟩

lemma colorLoop_extract (mv : Nat) (ih : Game → Option (List Game)) (g : Game) :
    ∀ cs outs, colorLoop mv ih g cs = some outs →
      ∀ c ∈ cs, ∀ r ∈ rollValues, ∃ (g1 : Game) (bouts : List Game),
        move_camel mv g c r = some g1 ∧ ih (branchState g1 c) = some bouts ∧
        ∀ l ∈ bouts, l ∈ outs := by
  intro cs
  induction cs with
  | nil =>
    intro outs _ c hc
    cases hc
  | cons c0 cs ihc =>
    intro outs h c hc r hr
    simp only [colorLoop] at h
    cases hro : rollLoop mv ih g c0 rollValues with
    | none => rw [hro] at h; cases h
    | some outs1 =>
      rw [hro] at h
      simp only [Option.some_bind] at h
      cases hco : colorLoop mv ih g cs with
      | none => rw [hco] at h; cases h
      | some rest =>
        rw [hco] at h
        simp only [Option.map_some'] at h
        have heq : outs1 ++ rest = outs := Option.some.inj h
        subst heq
        rcases List.mem_cons.mp hc with hce | hce
        · subst hce
          obtain ⟨g1, bouts, hm, hb, hsub⟩ :=
            rollLoop_extract mv ih g c rollValues outs1 hro r hr
          exact ⟨g1, bouts, hm, hb,
            fun l hl => List.mem_append.mpr (Or.inl (hsub l hl))⟩
        · obtain ⟨g1, bouts, hm, hb, hsub⟩ := ihc rest hco c hce r hr
          exact ⟨g1, bouts, hm, hb,
            fun l hl => List.mem_append.mpr (Or.inr (hsub l hl))⟩

lemma branchState_playing (g1 : Game) (c : Color) :
    (branchState g1 c).playing = g1.playing := rfl

lemma branchState_die (g1 : Game) (c : Color) :
    (branchState g1 c).die_remaining = g1.die_remaining.erase c := rfl

lemma rollLoop_cons {mv : Nat} {ih : Game → Option (List Game)} {g : Game}
    {c : Color} {r : Int} {rs : List Int} {outs : List Game}
    (h : rollLoop mv ih g c (r :: rs) = some outs) :
    ∃ (g1 : Game) (bouts rest : List Game), move_camel mv g c r = some g1 ∧
      ih (branchState g1 c) = some bouts ∧
      rollLoop mv ih g c rs = some rest ∧ outs = bouts ++ rest := by
  simp only [rollLoop] at h
  cases hm : move_camel mv g c r with
  | none => rw [hm] at h; cases h
  | some g1 =>
    rw [hm] at h
    simp only [Option.some_bind] at h
    cases hb : ih (branchState g1 c) with
    | none => rw [hb] at h; cases h
    | some bouts =>
      rw [hb] at h
      simp only [Option.some_bind] at h
      cases hr : rollLoop mv ih g c rs with
      | none => rw [hr] at h; cases h
      | some rest =>
        rw [hr] at h
        simp only [Option.map_some'] at h
        exact ⟨g1, bouts, rest, rfl, hb, rfl, (Option.some.inj h).symm⟩

lemma colorLoop_cons {mv : Nat} {ih : Game → Option (List Game)} {g : Game}
    {c : Color} {cs : List Color} {outs : List Game}
    (h : colorLoop mv ih g (c :: cs) = some outs) :
    ∃ outs1 rest : List Game, rollLoop mv ih g c rollValues = some outs1 ∧
      colorLoop mv ih g cs = some rest ∧ outs = outs1 ++ rest := by
  simp only [colorLoop] at h
  cases hro : rollLoop mv ih g c rollValues with
  | none => rw [hro] at h; cases h
  | some outs1 =>
    rw [hro] at h
    simp only [Option.some_bind] at h
    cases hco : colorLoop mv ih g cs with
    | none => rw [hco] at h; cases h
    | some rest =>
      rw [hco] at h
      simp only [Option.map_some'] at h
      exact ⟨outs1, rest, rfl, rfl, (Option.some.inj h).symm⟩

/-- The outcome list is never empty. -/
lemma generate_outcomes_ne_nil (mv : Nat) :
    ∀ (fuel : Nat) (g : Game) (outs : List Game),
      generate_outcomes mv fuel g = some outs → outs ≠ [] := by
  intro fuel
  induction fuel with
  | zero => intro g outs h; cases h
  | succ fuel ihf =>
    intro g outs h
    simp only [generate_outcomes] at h
    split at h
    · cases h
      simp
    · rename_i hd
      cases hcs : g.die_remaining with
      | nil => exact absurd hcs hd
      | cons c cs =>
        rw [hcs] at h
        obtain ⟨outs1, rest, hro, _, houts⟩ := colorLoop_cons h
        obtain ⟨g1, bouts, rest2, _, hb, _, houts1⟩ := rollLoop_cons hro
        have hne : bouts ≠ [] := ihf _ bouts hb
        subst houts houts1
        intro hcon
        simp at hcon
        exact hne hcon.1

/-- Every leaf of the enumeration has an empty `die_remaining`. -/
lemma generate_outcomes_die_empty (mv : Nat) :
    ∀ (fuel : Nat) (g : Game) (outs : List Game),
      generate_outcomes mv fuel g = some outs →
      ∀ l ∈ outs, l.die_remaining = [] := by
  intro fuel
  induction fuel with
  | zero => intro g outs h; cases h
  | succ fuel ihf =>
    intro g outs h l hl
    simp only [generate_outcomes] at h
    split at h
    · rename_i hd
      cases h
      rw [List.mem_singleton] at hl
      subst hl
      exact hd
    · obtain ⟨c, _, r, _, g1, bouts, _, hb, hin⟩ :=
        colorLoop_mem mv _ g g.die_remaining outs h l hl
      exact ihf _ bouts hb l hin

/-- Once the game is finished, every leaf below it is finished too
(`playing` is never reset to true). -/
lemma generate_outcomes_playing_false (mv : Nat) :
    ∀ (fuel : Nat) (g : Game) (outs : List Game),
      g.playing = false → generate_outcomes mv fuel g = some outs →
      ∀ l ∈ outs, l.playing = false := by
  intro fuel
  induction fuel with
  | zero => intro g outs _ h; cases h
  | succ fuel ihf =>
    intro g outs hp h l hl
    simp only [generate_outcomes] at h
    split at h
    · cases h
      rw [List.mem_singleton] at hl
      subst hl
      exact hp
    · obtain ⟨c, _, r, _, g1, bouts, hm, hb, hin⟩ :=
        colorLoop_mem mv _ g g.die_remaining outs h l hl
      have hp1 : g1.playing = false := by
        rcases move_camel_die_playing mv g c r g1 hm with h' | h'
        · rw [h'.2]; exact hp
        · exact h'
      exact ihf _ bouts (by rw [branchState_playing]; exact hp1) hb l hin

/-- When every leaf of a branch is still in play, the branch's move neither
finished the game nor touched the dice. -/
lemma branch_playing_die (mv fuel : Nat) {g : Game} {c : Color} {r : Int}
    {g1 : Game} {bouts outs : List Game}
    (hm : move_camel mv g c r = some g1)
    (hb : generate_outcomes mv fuel (branchState g1 c) = some bouts)
    (hsub : ∀ l ∈ bouts, l ∈ outs)
    (hall : ∀ l ∈ outs, l.playing = true) :
    (branchState g1 c).playing = true ∧ g1.die_remaining = g.die_remaining := by
  have hallb : ∀ l ∈ bouts, l.playing = true := fun l hl => hall l (hsub l hl)
  have hplay : (branchState g1 c).playing = true := by
    cases hbp : (branchState g1 c).playing with
    | true => rfl
    | false =>
      exfalso
      have hlf := generate_outcomes_playing_false mv fuel _ bouts hbp hb
      obtain ⟨l0, hl0⟩ :=
        List.exists_mem_of_ne_nil bouts (generate_outcomes_ne_nil mv fuel _ bouts hb)
      have htrue := hallb l0 hl0
      rw [hlf l0 hl0] at htrue
      cases htrue
  have hg1p : g1.playing = true := by
    rw [← branchState_playing g1 c]
    exact hplay
  refine ⟨hplay, ?_⟩
  rcases move_camel_die_playing mv g c r g1 hm with h' | h'
  · exact h'.1
  · rw [h'] at hg1p
    cases hg1p

/-- As long as no move during the enumeration finishes the game, the
enumeration of `k` dice has exactly `k! * 3^k` leaves. -/
lemma generate_outcomes_count (mv : Nat) :
    ∀ (fuel : Nat) (g : Game) (outs : List Game),
      g.playing = true → generate_outcomes mv fuel g = some outs →
      (∀ l ∈ outs, l.playing = true) →
      outs.length
        = Nat.factorial g.die_remaining.length * 3 ^ g.die_remaining.length := by
  intro fuel
  induction fuel with
  | zero => intro g outs _ h _; cases h
  | succ fuel ihf =>
    intro g outs hp h hall
    simp only [generate_outcomes] at h
    split at h
    · rename_i hd
      cases h
      simp [hd]
    · rename_i hd
      have hlen : outs.length = g.die_remaining.length *
          (3 * (Nat.factorial (g.die_remaining.length - 1)
            * 3 ^ (g.die_remaining.length - 1))) := by
        apply colorLoop_length mv _ g _ g.die_remaining ?_ outs h
        intro c hc r hr g1 bouts hm hb
        obtain ⟨g1', bouts', hm', hb', hsub⟩ :=
          colorLoop_extract mv _ g g.die_remaining outs h c hc r hr
        have hg1 : g1' = g1 := Option.some.inj (hm'.symm.trans hm)
        rw [hg1] at hb'
        have hbouts : bouts' = bouts := Option.some.inj (hb'.symm.trans hb)
        rw [hbouts] at hsub
        obtain ⟨hplay, hdie⟩ := branch_playing_die mv fuel hm hb hsub hall
        have hallb : ∀ l ∈ bouts, l.playing = true := fun l hl => hall l (hsub l hl)
        have hcount := ihf (branchState g1 c) bouts hplay hb hallb
        rw [branchState_die, hdie, List.length_erase_of_mem hc] at hcount
        exact hcount
      rw [hlen]
      obtain ⟨m, hmlen⟩ : ∃ m, g.die_remaining.length = m + 1 := by
        cases hcs : g.die_remaining with
        | nil => exact absurd hcs hd
        | cons a l => exact ⟨l.length, by simp⟩
      rw [hmlen]
      simp only [Nat.add_sub_cancel, Nat.factorial_succ, pow_succ]
      ring

/-- Every ordering of the remaining dice with any roll values 1..3 is
realized by some leaf of the enumeration (as long as no move finishes the
game). -/
lemma generate_outcomes_cover (mv : Nat) :
    ∀ (fuel : Nat) (g : Game) (outs : List Game),
      g.playing = true → generate_outcomes mv fuel g = some outs →
      (∀ l ∈ outs, l.playing = true) →
      ∀ s : List (Color × Int), (s.map Prod.fst).Perm g.die_remaining →
        (∀ p ∈ s, p.2 ∈ rollValues) →
        ∃ l ∈ outs, applySeq mv g s = some l := by
  intro fuel
  induction fuel with
  | zero => intro g outs _ h; cases h
  | succ fuel ihf =>
    intro g outs hp h hall s hperm hrolls
    simp only [generate_outcomes] at h
    split at h
    · rename_i hd
      cases h
      have hs : s = [] := by
        rw [hd] at hperm
        exact List.map_eq_nil_iff.mp hperm.eq_nil
      subst hs
      exact ⟨g, List.mem_singleton.mpr rfl, rfl⟩
    · rename_i hd
      cases s with
      | nil =>
        exfalso
        exact hd hperm.symm.eq_nil
      | cons p s' =>
        obtain ⟨c, r⟩ := p
        have hc : c ∈ g.die_remaining := by
          apply hperm.mem_iff.mp
          simp
        have hr : r ∈ rollValues := hrolls (c, r) (List.mem_cons_self _ _)
        obtain ⟨g1, bouts, hm, hb, hsub⟩ :=
          colorLoop_extract mv _ g g.die_remaining outs h c hc r hr
        obtain ⟨hplay, hdie⟩ := branch_playing_die mv fuel hm hb hsub hall
        have hallb : ∀ l ∈ bouts, l.playing = true := fun l hl => hall l (hsub l hl)
        have hperm' : (s'.map Prod.fst).Perm (branchState g1 c).die_remaining := by
          rw [branchState_die, hdie]
          have h1 := hperm.erase c
          rw [List.map_cons, List.erase_cons_head] at h1
          exact h1
        obtain ⟨l0, hl0, happ⟩ := ihf (branchState g1 c) bouts hplay hb hallb s'
          hperm' (fun p hp' => hrolls p (List.mem_cons_of_mem _ hp'))
        refine ⟨l0, hsub l0 hl0, ?_⟩
        simp only [applySeq]
        rw [hm]
        simp only [Option.some_bind]
        exact happ

/-- C1 (counterexample): on an in-progress game with one remaining die whose
camel already stands on spot 15, the enumerator produces 5832 leaves instead
of the claimed `1! * 3^1 = 3`: the finishing move refills `die_remaining`
inside the exploration, so each of the 3 branches recurses over 4 fresh dice
(`3 * 4! * 3^4 = 5832`). -/
theorem claim_C1_counterexample :
    gOverflow.playing = true ∧ gOverflow.die_remaining.length = 1 ∧
      (generate_outcomes 10 6 gOverflow).map List.length = some 5832 ∧
      (5832 : Nat) ≠ Nat.factorial 1 * 3 ^ 1 := by
  refine ⟨rfl, rfl, ?_, by norm_num⟩
  rw [generate_outcomes_length]
  rfl

/-- C1 (amended): for an in-progress game whose `die_remaining` has size k,
provided no move explored by the enumerator finishes the game (equivalently,
every returned leaf is still in play), `generate_outcomes` returns exactly
`k! * 3^k` leaf states, each with an empty `die_remaining`, covering every
ordering of the remaining colors times every roll value 1..3. -/
theorem claim_C1_amended :
    ∀ (mv fuel : Nat) (g : Game) (outs : List Game),
      g.playing = true →
      generate_outcomes mv fuel g = some outs →
      (∀ l ∈ outs, l.playing = true) →
      outs.length
          = Nat.factorial g.die_remaining.length * 3 ^ g.die_remaining.length
        ∧ (∀ l ∈ outs, l.die_remaining = [])
        ∧ (∀ s : List (Color × Int), (s.map Prod.fst).Perm g.die_remaining →
            (∀ p ∈ s, p.2 ∈ rollValues) →
            ∃ l ∈ outs, applySeq mv g s = some l) :=
  fun mv fuel g outs hp h hall =>
    ⟨generate_outcomes_count mv fuel g outs hp h hall,
      generate_outcomes_die_empty mv fuel g outs h,
      generate_outcomes_cover mv fuel g outs hp h hall⟩

theorem claim_C1_witness :
    ((generate_outcomes 10 3 gLow).get (by rfl)).length
        = Nat.factorial gLow.die_remaining.length * 3 ^ gLow.die_remaining.length ∧
      ∀ l ∈ (generate_outcomes 10 3 gLow).get (by rfl), l.die_remaining = [] :=
  ⟨(claim_C1_amended 10 3 gLow _ rfl (Option.some_get (by rfl)).symm (by decide)).1,
    (claim_C1_amended 10 3 gLow _ rfl (Option.some_get (by rfl)).symm (by decide)).2.1⟩
